import Mathlib

/-!
Shallow embedding of `src/Merging_Multiple_File.py` (a Streamlit multi-file
merger).  Tables are modelled row-major: a list of column names and a list of
rows, each row a list of cells.  A cell is a string, an integer, or the
missing value (pandas NaN).  The Streamlit calls (`st.error`, `st.info`,
`st.stop`, ...) are modelled by the result types: `LoadResult.error` carries
the message shown by `st.error`, `MergeResult.halted` models `st.stop()`
after the duplicate-key report (no table is produced and the script run
ends), `MergeResult.failed` models the `except` branch that shows the error
and returns `base_df` in the state it had when the exception was raised.

Pandas behaviours relied on, each visible in the definitions below:
* `Series.astype(str)` renders the missing value NaN as the string "nan";
  `.str.strip()` trims surrounding whitespace (`normVal`).
* `DataFrame.dropna(subset=[k])` keeps exactly the rows whose cell in
  column `k` is not NaN (`dropnaCol`).
* `s[s.duplicated()].unique()` lists, without repetition and in order of
  second occurrence, the values occurring more than once (`duplicateKeys`).
* `pd.merge(..., how='left', left_on=kb, right_on=kn, suffixes=('', sfx))`
  keeps every left row in order, fans out one output row per matching right
  row (in right order), fills right columns with NaN when there is no match,
  renames right columns colliding with a left column name by appending
  `sfx`, and, when `kb` and `kn` are the same column name, coalesces the two
  key columns into a single one (as in the spec's Scenario C); when the
  names differ both key columns appear in the output (`leftMerge`).
-/

inductive Value where
  | vStr : String → Value
  | vNum : Int → Value
  | vNa  : Value
deriving DecidableEq, Repr

structure Table where
  cols : List String
  rows : List (List Value)
deriving DecidableEq, Repr

/-- Well-formedness of a pandas DataFrame: every row has one cell per column. -/
def Table.WF (t : Table) : Prop := ∀ r ∈ t.rows, r.length = t.cols.length

instance (t : Table) : Decidable t.WF := List.decidableBAll _ t.rows

/-- Rendering of a cell by `Series.astype(str)`: NaN becomes the string "nan". -/
def strOfValue : Value → String
  | .vStr s => s
  | .vNum n => toString n
  | .vNa    => "nan"

/-- Model of Python's `str.strip()` (used by `.str.strip()` on key columns
and by the loader's column-name `.str.strip()`): drop whitespace characters
from both ends. -/
def String.pyStrip (s : String) : String :=
  ⟨((s.data.dropWhile Char.isWhitespace).reverse.dropWhile Char.isWhitespace).reverse⟩

/-- Key normalization applied cell-wise by `.astype(str).str.strip()`. -/
def normVal (v : Value) : Value := .vStr (strOfValue v).pyStrip

/-- Index of a column label, as pandas label lookup (`df[k]`); `none` models
the `KeyError` raised when the label is absent. -/
def colIdx (t : Table) (k : String) : Option Nat := t.cols.findIdx? (· == k)

/-- In-place update `df[k] = df[k].astype(str).str.strip()`;
`none` models the `KeyError` when column `k` is absent. -/
def normalizeKeyCol (t : Table) (k : String) : Option Table :=
  match colIdx t k with
  | none => none
  | some i => some ⟨t.cols, t.rows.map (fun r => r.set i (normVal (r.getD i .vNa)))⟩

/-- Model of `df.dropna(subset=[k])`: keep rows whose cell in column `k` is
not NaN. -/
def dropnaCol (t : Table) (k : String) : Option Table :=
  match colIdx t k with
  | none => none
  | some i => some ⟨t.cols, t.rows.filter (fun r => !(r.getD i .vNa == .vNa))⟩

/-- The string cells of column `k` (used on tables whose column `k` has been
string-cast already). -/
def colStrings (t : Table) (k : String) : List String :=
  match colIdx t k with
  | none => []
  | some i => t.rows.map (fun r => strOfValue (r.getD i .vNa))

/-- The normalized key strings of column `k` of `t`: what
`t[k].astype(str).str.strip()` holds. -/
def normalizedKeys (t : Table) (k : String) : List String :=
  match colIdx t k with
  | none => []
  | some i => t.rows.map (fun r => (strOfValue (r.getD i .vNa)).pyStrip)

/-- The subsequence of values standing at a `duplicated()` position
(every occurrence after the first), given the values already seen. -/
def dupRaw : List String → List String → List String
  | [], _ => []
  | x :: xs, seen =>
      if x ∈ seen then x :: dupRaw xs (x :: seen) else dupRaw xs (x :: seen)

/-- Order-preserving deduplication, as `Series.unique()`. -/
def dedupKeep : List String → List String → List String
  | [], _ => []
  | x :: xs, seen =>
      if x ∈ seen then dedupKeep xs seen else x :: dedupKeep xs (x :: seen)

/-- Model of `new_df[key_new][new_df[key_new].duplicated()].unique()`:
the distinct values occurring more than once, in order of second
occurrence. -/
def duplicateKeys (l : List String) : List String := dedupKeep (dupRaw l []) []

/-- Suffix renaming applied by `pd.merge`'s `suffixes=('', '_<kn>_merge')`
to the secondary columns colliding with a base column name. -/
def renameCols (baseCols : List String) (kn : String) (cs : List String) : List String :=
  cs.map (fun c => if baseCols.contains c then c ++ "_" ++ kn ++ "_merge" else c)

/-- Model of `pd.merge(base, new, left_on=kb, right_on=kn, how='left',
suffixes=('', '_<kn>_merge'))` on tables whose key columns are already
normalized.  When `kb = kn` the single shared key column is the base one and
the secondary key column is dropped from the output; when the names differ
both key columns appear. -/
def leftMerge (base new : Table) (kb kn : String) : Option Table :=
  match colIdx base kb, colIdx new kn with
  | some i, some j =>
      if kb == kn then
        let keptCols := new.cols.eraseIdx j
        some ⟨base.cols ++ renameCols base.cols kn keptCols,
          base.rows.flatMap (fun r =>
            let ms := new.rows.filter (fun m => r.getD i .vNa == m.getD j .vNa)
            if ms.isEmpty then [r ++ List.replicate keptCols.length .vNa]
            else ms.map (fun m => r ++ m.eraseIdx j))⟩
      else
        some ⟨base.cols ++ renameCols base.cols kn new.cols,
          base.rows.flatMap (fun r =>
            let ms := new.rows.filter (fun m => r.getD i .vNa == m.getD j .vNa)
            if ms.isEmpty then [r ++ List.replicate new.cols.length .vNa]
            else ms.map (fun m => r ++ m))⟩
  | _, _ => none

/-- Outcome of `merge_datasets`: a merged table, a hard stop (`st.stop()`)
carrying the reported duplicate key values, or a caught exception carrying
the `st.error` message and the base table as mutated so far. -/
inductive MergeResult where
  | ok     : Table → MergeResult
  | halted : List String → MergeResult
  | failed : String → Table → MergeResult
deriving DecidableEq, Repr

/-- Embedding of `merge_datasets(base_df, new_df, key_base, key_new)`.
The key columns are normalized in place, `dropna` runs on the already
string-cast secondary key column, the duplicate check reports the first 10
distinct duplicates and stops, otherwise the left merge runs.  A `KeyError`
(absent key column) lands in the `except` branch, which returns the base
table in its state at the time of the exception. -/
def merge_datasets (base new : Table) (kb kn : String) : MergeResult :=
  match normalizeKeyCol base kb with
  | none => .failed ("Merge failed: '" ++ kb ++ "'") base
  | some base2 =>
    match normalizeKeyCol new kn with
    | none => .failed ("Merge failed: '" ++ kn ++ "'") base2
    | some new2 =>
      match dropnaCol new2 kn with
      | none => .failed ("Merge failed: '" ++ kn ++ "'") base2
      | some new3 =>
        let dups := duplicateKeys (colStrings new3 kn)
        if dups.isEmpty then
          match leftMerge base2 new3 kb kn with
          | none => .failed ("Merge failed: '" ++ kn ++ "'") base2
          | some m => .ok m
        else .halted (dups.take 10)

/-- Outcome of `load_file`: a table, or the message shown by `st.error`
(the function then returns `None`). -/
inductive LoadResult where
  | ok    : Table → LoadResult
  | error : String → LoadResult
deriving DecidableEq, Repr

/-- An uploaded file: its name, byte size, and the outcome of the pandas
reader chosen by the name's extension (`read_csv` / `read_excel`), which
either yields a table or raises with a message. -/
structure FileHandle where
  name   : String
  size   : Nat
  parsed : Except String Table

/-- Embedding of `load_file(file)`: empty files and empty parses raise a
`ValueError`, any exception is reported as `Failed to load <name>: <e>` and
yields no table; on success the column names are lower-cased and trimmed. -/
def load_file (f : FileHandle) : LoadResult :=
  if f.size = 0 then .error ("Failed to load " ++ f.name ++ ": File is empty")
  else
    match f.parsed with
    | .error e => .error ("Failed to load " ++ f.name ++ ": " ++ e)
    | .ok df =>
      if df.rows.isEmpty || df.cols.isEmpty then
        .error ("Failed to load " ++ f.name ++ ": No data found")
      else .ok ⟨df.cols.map (fun c => c.toLower.pyStrip), df.rows⟩

/-- Embedding of `clean_data(df, file_name)`: `None` (a failed load) becomes
the empty DataFrame; when a `completion %` column is present the rows whose
cell there is NaN are dropped; otherwise the table is returned unchanged.
The `st.info` / `st.warning` messages carry no data used later and are not
modelled. -/
def clean_data (df : Option Table) (_fileName : String) : Table :=
  match df with
  | none => ⟨[], []⟩
  | some t =>
    match colIdx t "completion %" with
    | none => t
    | some i => ⟨t.cols, t.rows.filter (fun r => !(r.getD i .vNa == .vNa))⟩

/-- Embedding of the upload loop (lines 84-87): each file is loaded, a
failed load is skipped, a successful one is cleaned and recorded under the
file's name, in upload order. -/
def loadAndClean (files : List FileHandle) : List (String × Table) :=
  files.filterMap (fun f =>
    match load_file f with
    | .ok t => some (f.name, clean_data (some t) f.name)
    | .error _ => none)

/-! ## General lemmas about the embedding -/

theorem colIdx_eq_none_iff (t : Table) (k : String) :
    colIdx t k = none ↔ k ∉ t.cols := by
  show t.cols.findIdx? (· == k) = none ↔ k ∉ t.cols
  rw [List.findIdx?_eq_none_iff]
  constructor
  · intro h hk
    have := h k hk
    simp at this
  · intro h x hx
    simp only [beq_eq_false_iff_ne, ne_eq]
    rintro rfl
    exact h hx

theorem colIdx_lt_length {t : Table} {k : String} {i : Nat}
    (h : colIdx t k = some i) : i < t.cols.length := by
  have h' : t.cols.findIdx? (· == k) = some i := h
  exact (List.findIdx?_eq_some_iff_findIdx_eq.1 h').1

theorem colIdx_isSome_of_mem {t : Table} {k : String} (h : k ∈ t.cols) :
    ∃ i, colIdx t k = some i := by
  rcases ho : colIdx t k with _ | i
  · exact absurd ((colIdx_eq_none_iff t k).1 ho) (by simpa using h)
  · exact ⟨i, rfl⟩

theorem getD_set_self {r : List Value} {i : Nat} {v d : Value}
    (h : i < r.length) : (r.set i v).getD i d = v := by
  simp [List.getD_eq_getElem?_getD, List.getElem?_set_self h]

theorem colIdx_getElem {t : Table} {k : String} {i : Nat}
    (h : colIdx t k = some i) : t.cols[i]? = some k := by
  have h' : t.cols.findIdx? (· == k) = some i := h
  obtain ⟨hlt, hp, _⟩ := List.findIdx?_eq_some_iff_getElem.1 h'
  rw [List.getElem?_eq_getElem hlt]
  exact congrArg some (beq_iff_eq.1 hp)

theorem colIdx_mem {t : Table} {k : String} {i : Nat}
    (h : colIdx t k = some i) : k ∈ t.cols :=
  List.getElem?_mem (colIdx_getElem h)

theorem mem_eraseIdx_of_ne {l : List String} {j : Nat} {c x : String}
    (hj : l[j]? = some x) (hc : c ∈ l) (hne : c ≠ x) : c ∈ l.eraseIdx j := by
  induction l generalizing j with
  | nil => cases hc
  | cons y ys ih =>
    cases j with
    | zero =>
      simp only [List.getElem?_cons_zero, Option.some.injEq] at hj
      subst hj
      rcases List.mem_cons.1 hc with rfl | hmem
      · exact absurd rfl hne
      · simpa [List.eraseIdx] using hmem
    | succ j' =>
      simp only [List.getElem?_cons_succ] at hj
      rcases List.mem_cons.1 hc with rfl | hmem
      · simp [List.eraseIdx]
      · simpa [List.eraseIdx] using Or.inr (ih hj hmem)

theorem mem_dupRaw_of_mem_seen {x : String} {l seen : List String}
    (hl : x ∈ l) (hs : x ∈ seen) : x ∈ dupRaw l seen := by
  induction l generalizing seen with
  | nil => cases hl
  | cons y ys ih =>
    rcases List.mem_cons.1 hl with rfl | hmem
    · by_cases hy : x ∈ seen
      · simp [dupRaw, hy]
      · exact absurd hs hy
    · by_cases hy : y ∈ seen
      · simp only [dupRaw, if_pos hy]
        exact List.mem_cons_of_mem y (ih hmem (List.mem_cons_of_mem y hs))
      · simp only [dupRaw, if_neg hy]
        exact ih hmem (List.mem_cons_of_mem y hs)

theorem mem_dupRaw_of_two_le_count {x : String} {l : List String}
    (h : 2 ≤ l.count x) : ∀ seen, x ∈ dupRaw l seen := by
  induction l with
  | nil => simp at h
  | cons y ys ih =>
    intro seen
    by_cases hxy : y = x
    · subst hxy
      by_cases hy : y ∈ seen
      · simp [dupRaw, hy]
      · simp only [dupRaw, if_neg hy]
        have hcnt : 1 ≤ ys.count y := by
          have := List.count_cons_self y ys
          omega
        have hmem : y ∈ ys := List.count_pos_iff.1 hcnt
        exact mem_dupRaw_of_mem_seen hmem (List.mem_cons_self y seen)
    · have hcnt : 2 ≤ ys.count x := by
        have := List.count_cons x y ys
        simp [hxy] at this
        omega
      by_cases hy : y ∈ seen
      · simp only [dupRaw, if_pos hy]
        exact List.mem_cons_of_mem y (ih hcnt _)
      · simp only [dupRaw, if_neg hy]
        exact ih hcnt _

theorem mem_dedupKeep {x : String} {l seen : List String} :
    x ∈ dedupKeep l seen ↔ x ∈ l ∧ x ∉ seen := by
  induction l generalizing seen with
  | nil => simp [dedupKeep]
  | cons y ys ih =>
    by_cases hy : y ∈ seen
    · rw [show dedupKeep (y :: ys) seen = dedupKeep ys seen from by
        simp [dedupKeep, hy], ih]
      constructor
      · rintro ⟨h1, h2⟩
        exact ⟨List.mem_cons_of_mem y h1, h2⟩
      · rintro ⟨h1, h2⟩
        rcases List.mem_cons.1 h1 with rfl | hmem
        · exact absurd hy h2
        · exact ⟨hmem, h2⟩
    · rw [show dedupKeep (y :: ys) seen = y :: dedupKeep ys (y :: seen) from by
        simp [dedupKeep, hy]]
      constructor
      · intro hmem
        rcases List.mem_cons.1 hmem with rfl | hmem2
        · exact ⟨List.mem_cons_self x ys, hy⟩
        · obtain ⟨h1, h2⟩ := ih.1 hmem2
          exact ⟨List.mem_cons_of_mem y h1,
            fun hs => h2 (List.mem_cons_of_mem y hs)⟩
      · rintro ⟨h1, h2⟩
        rcases List.mem_cons.1 h1 with rfl | hmem
        · exact List.mem_cons_self x _
        · by_cases hxy : x = y
          · subst hxy; exact List.mem_cons_self x _
          · refine List.mem_cons_of_mem y (ih.2 ⟨hmem, ?_⟩)
            intro hs
            rcases List.mem_cons.1 hs with h | h
            · exact hxy h
            · exact h2 h

theorem dupRaw_eq_nil_iff {l seen : List String} :
    dupRaw l seen = [] ↔ l.Nodup ∧ ∀ x ∈ l, x ∉ seen := by
  induction l generalizing seen with
  | nil => simp [dupRaw]
  | cons y ys ih =>
    by_cases hy : y ∈ seen
    · simp only [dupRaw, if_pos hy]
      constructor
      · intro h; cases h
      · rintro ⟨_, h2⟩
        exact absurd hy (h2 y (List.mem_cons_self y ys))
    · simp only [dupRaw, if_neg hy, ih, List.nodup_cons]
      constructor
      · rintro ⟨h1, h2⟩
        have hyys : y ∉ ys := fun hmem =>
          (h2 y hmem) (List.mem_cons_self y seen)
        refine ⟨⟨hyys, h1⟩, ?_⟩
        intro x hx
        rcases List.mem_cons.1 hx with rfl | hmem
        · exact hy
        · exact fun hs => (h2 x hmem) (List.mem_cons_of_mem y hs)
      · rintro ⟨⟨hyys, h1⟩, h2⟩
        refine ⟨h1, ?_⟩
        intro x hx hs
        rcases List.mem_cons.1 hs with rfl | hmem
        · exact hyys hx
        · exact (h2 x (List.mem_cons_of_mem y hx)) hmem

theorem dedupKeep_eq_nil_iff {l seen : List String} :
    dedupKeep l seen = [] ↔ ∀ x ∈ l, x ∈ seen := by
  induction l generalizing seen with
  | nil => simp [dedupKeep]
  | cons y ys ih =>
    by_cases hy : y ∈ seen
    · simp [dedupKeep, hy, ih]
    · simp only [dedupKeep, if_neg hy]
      constructor
      · intro h; cases h
      · intro h
        exact absurd (h y (List.mem_cons_self y ys)) hy

theorem duplicateKeys_eq_nil_iff {l : List String} :
    duplicateKeys l = [] ↔ l.Nodup := by
  unfold duplicateKeys
  rw [dedupKeep_eq_nil_iff]
  constructor
  · intro h
    have hnil : dupRaw l [] = [] := by
      rcases he : dupRaw l [] with _ | ⟨x, xs⟩
      · rfl
      · exact absurd (by rw [he] at h; exact h x (List.mem_cons_self x xs)) (by simp)
    exact (dupRaw_eq_nil_iff.1 hnil).1
  · intro h x hx
    have hnil : dupRaw l [] = [] := dupRaw_eq_nil_iff.2 ⟨h, by simp⟩
    rw [hnil] at hx
    cases hx

theorem mem_duplicateKeys_of_two_le_count {x : String} {l : List String}
    (h : 2 ≤ l.count x) : x ∈ duplicateKeys l :=
  mem_dedupKeep.2 ⟨mem_dupRaw_of_two_le_count h [], by simp⟩

theorem le_length_flatMap {α β : Type} {l : List α} {f : α → List β}
    (h : ∀ a ∈ l, 1 ≤ (f a).length) : l.length ≤ (l.flatMap f).length := by
  induction l with
  | nil => simp
  | cons a as ih =>
    have h1 := h a (List.mem_cons_self a as)
    have h2 := ih (fun b hb => h b (List.mem_cons_of_mem a hb))
    simp only [List.flatMap_cons, List.length_append, List.length_cons]
    omega

theorem length_flatMap_eq_iff {α β : Type} {l : List α} {f : α → List β}
    (h : ∀ a ∈ l, 1 ≤ (f a).length) :
    (l.flatMap f).length = l.length ↔ ∀ a ∈ l, (f a).length = 1 := by
  induction l with
  | nil => simp
  | cons a as ih =>
    have h1 := h a (List.mem_cons_self a as)
    have h2 : ∀ b ∈ as, 1 ≤ (f b).length :=
      fun b hb => h b (List.mem_cons_of_mem a hb)
    have hle := le_length_flatMap h2
    simp only [List.flatMap_cons, List.length_append, List.length_cons]
    constructor
    · intro he
      have hfa : (f a).length = 1 := by omega
      have hrest : (as.flatMap f).length = as.length := by omega
      intro b hb
      rcases List.mem_cons.1 hb with rfl | hb2
      · exact hfa
      · exact ((ih h2).1 hrest) b hb2
    · intro hall
      have hfa : (f a).length = 1 := hall a (List.mem_cons_self a as)
      have hrest : (as.flatMap f).length = as.length :=
        (ih h2).2 (fun b hb => hall b (List.mem_cons_of_mem a hb))
      omega

theorem vStr_beq_vNa (s : String) : (Value.vStr s == Value.vNa) = false := by
  rw [beq_eq_false_iff_ne]
  intro h
  cases h

theorem cell_after_set {r : List Value} {j : Nat} (hj : j < r.length) :
    (r.set j (normVal (r.getD j .vNa))).getD j .vNa =
      Value.vStr ((strOfValue (r.getD j .vNa)).pyStrip) :=
  getD_set_self hj

theorem merge_pipeline (base new : Table) (kb kn : String) (i j : Nat)
    (hi : colIdx base kb = some i) (hj : colIdx new kn = some j) (hwn : new.WF) :
    normalizeKeyCol base kb =
        some ⟨base.cols, base.rows.map (fun r => r.set i (normVal (r.getD i .vNa)))⟩ ∧
    normalizeKeyCol new kn =
        some ⟨new.cols, new.rows.map (fun r => r.set j (normVal (r.getD j .vNa)))⟩ ∧
    dropnaCol ⟨new.cols, new.rows.map (fun r => r.set j (normVal (r.getD j .vNa)))⟩ kn =
        some ⟨new.cols, new.rows.map (fun r => r.set j (normVal (r.getD j .vNa)))⟩ ∧
    colStrings ⟨new.cols, new.rows.map (fun r => r.set j (normVal (r.getD j .vNa)))⟩ kn =
        normalizedKeys new kn := by
  have hjlt : j < new.cols.length := colIdx_lt_length hj
  have hj2 : colIdx ⟨new.cols, new.rows.map (fun r => r.set j (normVal (r.getD j .vNa)))⟩ kn
      = some j := hj
  have hcell : ∀ r ∈ new.rows,
      (r.set j (normVal (r.getD j .vNa))).getD j .vNa =
        Value.vStr ((strOfValue (r.getD j .vNa)).pyStrip) := by
    intro r hr
    exact cell_after_set (by rw [hwn r hr]; exact hjlt)
  refine ⟨by simp [normalizeKeyCol, hi], by simp [normalizeKeyCol, hj], ?_, ?_⟩
  · simp only [dropnaCol, hj2, Option.some.injEq]
    congr 1
    rw [List.filter_eq_self]
    intro r hr
    obtain ⟨r0, hr0, rfl⟩ := List.mem_map.1 hr
    rw [hcell r0 hr0, vStr_beq_vNa]
    rfl
  · simp only [colStrings, hj2, normalizedKeys, hj, List.map_map]
    apply List.map_congr_left
    intro r hr
    simp only [Function.comp]
    rw [hcell r hr]
    rfl

theorem merge_halt_aux {base new : Table} {kb kn : String} {i j : Nat}
    (hi : colIdx base kb = some i) (hj : colIdx new kn = some j) (hwn : new.WF)
    (hdup : ¬ (normalizedKeys new kn).Nodup) :
    merge_datasets base new kb kn =
      .halted ((duplicateKeys (normalizedKeys new kn)).take 10) := by
  obtain ⟨hP1, hP2, hP3, hP4⟩ := merge_pipeline base new kb kn i j hi hj hwn
  have hne : duplicateKeys (normalizedKeys new kn) ≠ [] :=
    fun he => hdup (duplicateKeys_eq_nil_iff.1 he)
  have hemp : (duplicateKeys (normalizedKeys new kn)).isEmpty = false := by
    simp [List.isEmpty_iff, hne]
  simp only [merge_datasets, hP1, hP2, hP3, hP4, hemp, Bool.false_eq_true, if_false]

theorem leftMerge_eq_same {base new : Table} {kb kn : String} {i j : Nat}
    (hi : colIdx base kb = some i) (hj : colIdx new kn = some j) (hk : kb = kn) :
    leftMerge base new kb kn =
      some ⟨base.cols ++ renameCols base.cols kn (new.cols.eraseIdx j),
        base.rows.flatMap (fun r =>
          if (new.rows.filter (fun m => r.getD i .vNa == m.getD j .vNa)).isEmpty then
            [r ++ List.replicate (new.cols.eraseIdx j).length .vNa]
          else (new.rows.filter (fun m => r.getD i .vNa == m.getD j .vNa)).map
            (fun m => r ++ m.eraseIdx j))⟩ := by
  subst hk
  simp [leftMerge, hi, hj]

theorem leftMerge_eq_diff {base new : Table} {kb kn : String} {i j : Nat}
    (hi : colIdx base kb = some i) (hj : colIdx new kn = some j) (hk : kb ≠ kn) :
    leftMerge base new kb kn =
      some ⟨base.cols ++ renameCols base.cols kn new.cols,
        base.rows.flatMap (fun r =>
          if (new.rows.filter (fun m => r.getD i .vNa == m.getD j .vNa)).isEmpty then
            [r ++ List.replicate new.cols.length .vNa]
          else (new.rows.filter (fun m => r.getD i .vNa == m.getD j .vNa)).map
            (fun m => r ++ m))⟩ := by
  have hk' : (kb == kn) = false := beq_eq_false_iff_ne.2 hk
  simp [leftMerge, hi, hj, hk']

theorem merge_ok_run {base new : Table} {kb kn : String} {i j : Nat} {m : Table}
    (hi : colIdx base kb = some i) (hj : colIdx new kn = some j) (hwn : new.WF)
    (huniq : (normalizedKeys new kn).Nodup)
    (hm : leftMerge
        ⟨base.cols, base.rows.map (fun r => r.set i (normVal (r.getD i .vNa)))⟩
        ⟨new.cols, new.rows.map (fun r => r.set j (normVal (r.getD j .vNa)))⟩ kb kn
      = some m) :
    merge_datasets base new kb kn = .ok m := by
  obtain ⟨hP1, hP2, hP3, hP4⟩ := merge_pipeline base new kb kn i j hi hj hwn
  have hemp : (duplicateKeys (normalizedKeys new kn)).isEmpty = true := by
    simp [List.isEmpty_iff, duplicateKeys_eq_nil_iff.2 huniq]
  simp only [merge_datasets, hP1, hP2, hP3, hP4, hemp, if_true, hm]

theorem ms_length {new : Table} {kn : String} {j : Nat}
    (hj : colIdx new kn = some j) (hwn : new.WF) (s : String) :
    ((new.rows.map (fun r => r.set j (normVal (r.getD j .vNa)))).filter
        (fun m => Value.vStr s == m.getD j .vNa)).length
      = (normalizedKeys new kn).count s := by
  have hjlt : j < new.cols.length := colIdx_lt_length hj
  rw [List.filter_map, List.length_map]
  have hkeys : normalizedKeys new kn
      = new.rows.map (fun r => (strOfValue (r.getD j .vNa)).pyStrip) := by
    simp [normalizedKeys, hj]
  rw [hkeys, ← List.countP_eq_length_filter, List.count_eq_countP, List.countP_map]
  apply List.countP_congr
  intro r hr
  have hc : (r.set j (normVal (r.getD j .vNa))).getD j .vNa
      = Value.vStr ((strOfValue (r.getD j .vNa)).pyStrip) :=
    cell_after_set (by rw [hwn r hr]; exact hjlt)
  simp only [Function.comp, hc, beq_iff_eq, Value.vStr.injEq]
  exact eq_comm

theorem flatMap_match_facts {α β γ : Type} (l : List α) (M : α → List β)
    (fillr : α → γ) (mp : α → β → γ) :
    let f := fun r => if (M r).isEmpty then [fillr r] else (M r).map (mp r)
    (l.length ≤ (l.flatMap f).length) ∧
    ((l.flatMap f).length = l.length ↔ ∀ r ∈ l, (M r).length ≤ 1) ∧
    (∀ r ∈ l, (M r).length = 0 → fillr r ∈ l.flatMap f) := by
  intro f
  have hflen : ∀ r, (f r).length = if (M r).isEmpty then 1 else (M r).length := by
    intro r
    by_cases hc : (M r).isEmpty <;> simp [f, hc]
  have h1 : ∀ r ∈ l, 1 ≤ (f r).length := by
    intro r hr
    rw [hflen r]
    by_cases hc : (M r).isEmpty
    · simp [hc]
    · rw [if_neg hc]
      have h0 : (M r).length ≠ 0 :=
        fun h => hc (List.isEmpty_iff_length_eq_zero.2 h)
      omega
  refine ⟨le_length_flatMap h1, ?_, ?_⟩
  · rw [length_flatMap_eq_iff h1]
    constructor
    · intro hall r hr
      have hh := hall r hr
      rw [hflen r] at hh
      by_cases hc : (M r).isEmpty
      · have := List.isEmpty_iff_length_eq_zero.1 hc
        omega
      · rw [if_neg hc] at hh
        omega
    · intro hall r hr
      rw [hflen r]
      by_cases hc : (M r).isEmpty
      · simp [hc]
      · rw [if_neg hc]
        have h0 : (M r).length ≠ 0 :=
          fun h => hc (List.isEmpty_iff_length_eq_zero.2 h)
        have := hall r hr
        omega
  · intro r hr hc
    have hemp : (M r).isEmpty = true := List.isEmpty_iff_length_eq_zero.2 hc
    have hfr : f r = [fillr r] := by simp [f, hemp]
    exact List.mem_flatMap_of_mem hr (by rw [hfr]; exact List.mem_cons_self _ _)

theorem merge_rows_facts {base new : Table} {kb kn : String} {i j : Nat}
    (hi : colIdx base kb = some i) (hj : colIdx new kn = some j)
    (hwb : base.WF) (hwn : new.WF)
    (mp : List Value → List Value → List Value) (FILL : Nat) :
    let g := fun r : List Value => r.set i (normVal (r.getD i .vNa))
    let n2rows := new.rows.map (fun r => r.set j (normVal (r.getD j .vNa)))
    let M := fun r2 : List Value =>
      n2rows.filter (fun m' => r2.getD i .vNa == m'.getD j .vNa)
    let f := fun r2 =>
      if (M r2).isEmpty then [r2 ++ List.replicate FILL Value.vNa]
      else (M r2).map (mp r2)
    let rowsOut := (base.rows.map g).flatMap f
    (base.rows.length ≤ rowsOut.length) ∧
    (rowsOut.length = base.rows.length ↔
      ∀ s ∈ normalizedKeys base kb, (normalizedKeys new kn).count s ≤ 1) ∧
    (∀ r2 ∈ base.rows.map g,
      (normalizedKeys new kn).count (strOfValue (r2.getD i .vNa)) = 0 →
        r2 ++ List.replicate FILL Value.vNa ∈ rowsOut) := by
  intro g n2rows M f rowsOut
  have hilt : i < base.cols.length := colIdx_lt_length hi
  obtain ⟨hA, hB, hC⟩ :=
    flatMap_match_facts (base.rows.map g) M
      (fun r2 => r2 ++ List.replicate FILL Value.vNa) mp
  have hcell : ∀ r0 ∈ base.rows,
      (g r0).getD i .vNa = Value.vStr ((strOfValue (r0.getD i .vNa)).pyStrip) := by
    intro r0 hr0
    exact cell_after_set (by rw [hwb r0 hr0]; exact hilt)
  have hms : ∀ r0 ∈ base.rows,
      (M (g r0)).length
        = (normalizedKeys new kn).count ((strOfValue (r0.getD i .vNa)).pyStrip) := by
    intro r0 hr0
    show (n2rows.filter (fun m' => (g r0).getD i .vNa == m'.getD j .vNa)).length = _
    rw [hcell r0 hr0]
    exact ms_length hj hwn _
  have hkeyOf : ∀ r0 ∈ base.rows,
      strOfValue ((g r0).getD i .vNa) = (strOfValue (r0.getD i .vNa)).pyStrip := by
    intro r0 hr0
    rw [hcell r0 hr0]
    rfl
  have hkeyB : normalizedKeys base kb
      = base.rows.map (fun r0 => (strOfValue (r0.getD i .vNa)).pyStrip) := by
    simp [normalizedKeys, hi]
  have hlm : (base.rows.map g).length = base.rows.length := by simp
  refine ⟨by rw [← hlm]; exact hA, ?_, ?_⟩
  · refine Iff.trans (by rw [← hlm]) (hB.trans ?_)
    constructor
    · intro h s hs
      rw [hkeyB] at hs
      obtain ⟨r0, hr0, rfl⟩ := List.mem_map.1 hs
      have hh := h (g r0) (List.mem_map_of_mem g hr0)
      rwa [hms r0 hr0] at hh
    · intro h r2 hr2
      obtain ⟨r0, hr0, rfl⟩ := List.mem_map.1 hr2
      rw [hms r0 hr0]
      refine h _ ?_
      rw [hkeyB]
      exact List.mem_map_of_mem _ hr0
  · intro r2 hr2 h0
    obtain ⟨r0, hr0, rfl⟩ := List.mem_map.1 hr2
    refine hC (g r0) (List.mem_map_of_mem g hr0) ?_
    rw [hms r0 hr0]
    rw [hkeyOf r0 hr0] at h0
    exact h0

/-! ## Claim theorems -/

/-- C1: for every base table, secondary table and key pair whose key columns
exist, if after key normalization the secondary key column contains a value
occurring more than once, `merge_datasets` halts the whole workflow (the
result is `halted`, no table is returned, modelling `st.stop()`) and reports
the distinct duplicate key values truncated to the first 10. -/
theorem merge_duplicate_keys_halt (base new : Table) (kb kn : String)
    (hwn : new.WF) (hb : kb ∈ base.cols) (hn : kn ∈ new.cols)
    (hdup : ¬ (normalizedKeys new kn).Nodup) :
    merge_datasets base new kb kn =
      .halted ((duplicateKeys (normalizedKeys new kn)).take 10) ∧
    duplicateKeys (normalizedKeys new kn) ≠ [] := by
  obtain ⟨i, hi⟩ := colIdx_isSome_of_mem hb
  obtain ⟨j, hj⟩ := colIdx_isSome_of_mem hn
  exact ⟨merge_halt_aux hi hj hwn hdup,
    fun he => hdup (duplicateKeys_eq_nil_iff.1 he)⟩

/-- Witness for C1: the spec's Scenario B, a secondary table with key `"1"`
twice, halts reporting `"1"`. -/
theorem merge_duplicate_keys_halt_witness :
    merge_datasets ⟨["id"], [[Value.vStr "1"], [Value.vStr "2"]]⟩
      ⟨["id", "v"], [[Value.vStr "1", Value.vNum 5], [Value.vStr "1", Value.vNum 6]]⟩
      "id" "id" = .halted ["1"] := by
  have h := (merge_duplicate_keys_halt
      ⟨["id"], [[Value.vStr "1"], [Value.vStr "2"]]⟩
      ⟨["id", "v"], [[Value.vStr "1", Value.vNum 5], [Value.vStr "1", Value.vNum 6]]⟩
      "id" "id" (by decide) (by decide) (by decide) (by decide)).1
  exact h.trans (by decide)

/-- C9: when the secondary table has two or more rows whose key cell is
missing, those rows are not dropped: the string cast run before `dropna`
turns each missing key into the literal string "nan", so they collide as
duplicates and `merge_datasets` hard-stops with "nan" among the offending
values (the reported list being the first 10 of them). -/
theorem merge_missing_keys_nan_halt (base new : Table) (kb kn : String)
    (j : Nat) (hwn : new.WF) (hb : kb ∈ base.cols) (hj : colIdx new kn = some j)
    (hmiss : 2 ≤ new.rows.countP (fun r => r.getD j .vNa == .vNa)) :
    merge_datasets base new kb kn =
      .halted ((duplicateKeys (normalizedKeys new kn)).take 10) ∧
    "nan" ∈ duplicateKeys (normalizedKeys new kn) := by
  obtain ⟨i, hi⟩ := colIdx_isSome_of_mem hb
  have hkeys : normalizedKeys new kn
      = new.rows.map (fun r => (strOfValue (r.getD j .vNa)).pyStrip) := by
    simp [normalizedKeys, hj]
  have hcount : 2 ≤ (normalizedKeys new kn).count "nan" := by
    rw [hkeys, List.count_eq_countP, List.countP_map]
    refine le_trans hmiss (List.countP_mono_left ?_)
    intro r hr hp
    have hna : r.getD j .vNa = .vNa := beq_iff_eq.1 hp
    simp only [Function.comp, hna]
    decide
  have hdup : ¬ (normalizedKeys new kn).Nodup := by
    intro hnd
    have := List.nodup_iff_count_le_one.1 hnd "nan"
    omega
  exact ⟨merge_halt_aux hi hj hwn hdup, mem_duplicateKeys_of_two_le_count hcount⟩

/-- Witness for C9: two secondary rows with a missing key halt the merge
with "nan" reported, instead of being dropped. -/
theorem merge_missing_keys_nan_halt_witness :
    merge_datasets ⟨["a"], [[Value.vStr "1"]]⟩
      ⟨["b", "v"], [[Value.vNa, Value.vNum 5], [Value.vNa, Value.vNum 6]]⟩
      "a" "b" = .halted ["nan"] ∧
    "nan" ∈ duplicateKeys (normalizedKeys
      ⟨["b", "v"], [[Value.vNa, Value.vNum 5], [Value.vNa, Value.vNum 6]]⟩ "b") := by
  have h := merge_missing_keys_nan_halt ⟨["a"], [[Value.vStr "1"]]⟩
      ⟨["b", "v"], [[Value.vNa, Value.vNum 5], [Value.vNa, Value.vNum 6]]⟩
      "a" "b" 0 (by decide) (by decide) (by decide) (by decide)
  exact ⟨h.1.trans (by decide), h.2⟩

/-- C3: when both key columns exist and the secondary's normalized keys are
unique (the duplicate check passes), the merge succeeds and preserves every
base row: the output row count is at least the base's, with equality exactly
when every base key matches at most one secondary row; and every
(key-normalized) base row without a matching secondary key appears in the
output padded with missing values in all the secondary columns (one fewer
when the key columns share a name and are coalesced). -/
theorem merge_left_preserving (base new : Table) (kb kn : String) (i j : Nat)
    (hwb : base.WF) (hwn : new.WF)
    (hi : colIdx base kb = some i) (hj : colIdx new kn = some j)
    (huniq : (normalizedKeys new kn).Nodup) :
    ∃ base2 m, normalizeKeyCol base kb = some base2 ∧
      merge_datasets base new kb kn = .ok m ∧
      base.rows.length ≤ m.rows.length ∧
      (m.rows.length = base.rows.length ↔
        ∀ s ∈ normalizedKeys base kb, (normalizedKeys new kn).count s ≤ 1) ∧
      (∀ r2 ∈ base2.rows,
        (normalizedKeys new kn).count (strOfValue (r2.getD i .vNa)) = 0 →
          r2 ++ List.replicate
              (if kb = kn then new.cols.length - 1 else new.cols.length)
              Value.vNa ∈ m.rows) := by
  have hjlt : j < new.cols.length := colIdx_lt_length hj
  have hi2 : colIdx ⟨base.cols,
      base.rows.map (fun r => r.set i (normVal (r.getD i .vNa)))⟩ kb = some i := hi
  have hj2 : colIdx ⟨new.cols,
      new.rows.map (fun r => r.set j (normVal (r.getD j .vNa)))⟩ kn = some j := hj
  by_cases hk : kb = kn
  · have hm := leftMerge_eq_same hi2 hj2 hk
    obtain ⟨hA, hB, hC⟩ := merge_rows_facts hi hj hwb hwn
      (fun r m' => r ++ m'.eraseIdx j) (new.cols.eraseIdx j).length
    refine ⟨⟨base.cols, base.rows.map (fun r => r.set i (normVal (r.getD i .vNa)))⟩,
      _, by simp [normalizeKeyCol, hi], merge_ok_run hi hj hwn huniq hm,
      hA, hB, ?_⟩
    intro r2 hr2 h0
    rw [if_pos hk, ← List.length_eraseIdx_of_lt hjlt]
    exact hC r2 hr2 h0
  · have hm := leftMerge_eq_diff hi2 hj2 hk
    obtain ⟨hA, hB, hC⟩ := merge_rows_facts hi hj hwb hwn
      (fun r m' => r ++ m') new.cols.length
    refine ⟨⟨base.cols, base.rows.map (fun r => r.set i (normVal (r.getD i .vNa)))⟩,
      _, by simp [normalizeKeyCol, hi], merge_ok_run hi hj hwn huniq hm,
      hA, hB, ?_⟩
    intro r2 hr2 h0
    rw [if_neg hk]
    exact hC r2 hr2 h0

/-- Witness for C3: the spec's Scenario A augmented with an unmatched base
row; hypotheses are discharged on concrete tables. -/
theorem merge_left_preserving_witness :
    ∃ base2 m,
      normalizeKeyCol ⟨["id", "name"], [[Value.vStr "1", Value.vStr "x"],
        [Value.vStr "7", Value.vStr "y"]]⟩ "id" = some base2 ∧
      merge_datasets ⟨["id", "name"], [[Value.vStr "1", Value.vStr "x"],
          [Value.vStr "7", Value.vStr "y"]]⟩
        ⟨["id", "score"], [[Value.vStr " 1 ", Value.vNum 10]]⟩ "id" "id" = .ok m ∧
      (⟨["id", "name"], [[Value.vStr "1", Value.vStr "x"],
        [Value.vStr "7", Value.vStr "y"]]⟩ : Table).rows.length ≤ m.rows.length ∧
      (m.rows.length = (⟨["id", "name"], [[Value.vStr "1", Value.vStr "x"],
          [Value.vStr "7", Value.vStr "y"]]⟩ : Table).rows.length ↔
        ∀ s ∈ normalizedKeys ⟨["id", "name"], [[Value.vStr "1", Value.vStr "x"],
            [Value.vStr "7", Value.vStr "y"]]⟩ "id",
          (normalizedKeys ⟨["id", "score"],
            [[Value.vStr " 1 ", Value.vNum 10]]⟩ "id").count s ≤ 1) ∧
      (∀ r2 ∈ base2.rows,
        (normalizedKeys ⟨["id", "score"],
            [[Value.vStr " 1 ", Value.vNum 10]]⟩ "id").count
          (strOfValue (r2.getD 0 .vNa)) = 0 →
          r2 ++ List.replicate
              (if "id" = "id" then
                (⟨["id", "score"], [[Value.vStr " 1 ", Value.vNum 10]]⟩ : Table).cols.length - 1
              else (⟨["id", "score"],
                [[Value.vStr " 1 ", Value.vNum 10]]⟩ : Table).cols.length)
              Value.vNa ∈ m.rows) :=
  merge_left_preserving
    ⟨["id", "name"], [[Value.vStr "1", Value.vStr "x"], [Value.vStr "7", Value.vStr "y"]]⟩
    ⟨["id", "score"], [[Value.vStr " 1 ", Value.vNum 10]]⟩ "id" "id" 0 0
    (by decide) (by decide) (by decide) (by decide) (by decide)

theorem contains_iff {l : List String} {c : String} :
    l.contains c = true ↔ c ∈ l := by
  simp [List.contains]

theorem mem_renameCols_of_collide {baseCols : List String} {kn c : String}
    {L : List String} (hc : c ∈ L) (hb : c ∈ baseCols) :
    (c ++ "_" ++ kn ++ "_merge") ∈ renameCols baseCols kn L := by
  refine List.mem_map.2 ⟨c, hc, ?_⟩
  rw [if_pos (contains_iff.2 hb)]

theorem mem_renameCols_of_fresh {baseCols : List String} {kn c : String}
    {L : List String} (hc : c ∈ L) (hb : c ∉ baseCols) :
    c ∈ renameCols baseCols kn L := by
  refine List.mem_map.2 ⟨c, hc, ?_⟩
  rw [if_neg (fun h => hb (contains_iff.1 h))]

theorem count_renameCols_key_zero {baseCols : List String} {kn : String}
    {L : List String} (hkn : kn ∈ baseCols) :
    (renameCols baseCols kn L).count kn = 0 := by
  rw [List.count_eq_zero]
  intro hmem
  obtain ⟨c, hc, he⟩ := List.mem_map.1 hmem
  by_cases hcont : baseCols.contains c = true
  · rw [if_pos hcont] at he
    have hlen := congrArg String.length he
    rw [String.length_append, String.length_append, String.length_append] at hlen
    have h1 : ("_" : String).length = 1 := rfl
    have h6 : ("_merge" : String).length = 6 := rfl
    rw [h1, h6] at hlen
    omega
  · rw [if_neg hcont] at he
    subst he
    exact hcont (contains_iff.2 hkn)

/-- C5 counterexample: with `base_key = secondary_key = "id"` the output of
`merge_datasets` has a single `id` column — the key columns are coalesced,
not retained as two separate columns as the claim states (the colliding
non-key column `score` is renamed as claimed). -/
theorem merge_key_columns_coalesced_counterexample :
    merge_datasets ⟨["id", "score"], [[Value.vStr "1", Value.vNum 1]]⟩
        ⟨["id", "score"], [[Value.vStr "1", Value.vNum 2]]⟩ "id" "id"
      = .ok ⟨["id", "score", "score_id_merge"],
          [[Value.vStr "1", Value.vNum 1, Value.vNum 2]]⟩ ∧
    (["id", "score", "score_id_merge"] : List String).count "id" = 1 := by
  exact ⟨by decide, by decide⟩

/-- C5 (amended): when the merge reaches the join, a secondary non-key
column colliding with a base column name is renamed by appending
`_<secondary_key>_merge` while the base columns keep their names (they form
the leftmost columns of the output) and their values (the leftmost cells of
every output row form a key-normalized base row); a non-colliding secondary
column keeps its name.  When `base_key ≠ secondary_key` both key columns are
retained (the secondary's suffixed only if its name collides with a base
column); when `base_key = secondary_key` by name the key columns are
coalesced into a single column instead of being kept separate. -/
theorem merge_column_collision_suffix (base new : Table) (kb kn : String)
    (i j : Nat) (hwb : base.WF) (hwn : new.WF)
    (hi : colIdx base kb = some i) (hj : colIdx new kn = some j)
    (huniq : (normalizedKeys new kn).Nodup) :
    ∃ base2 m, normalizeKeyCol base kb = some base2 ∧
      merge_datasets base new kb kn = .ok m ∧
      m.cols.take base.cols.length = base.cols ∧
      (∀ r ∈ m.rows, r.take base.cols.length ∈ base2.rows) ∧
      (∀ c ∈ new.cols, c ≠ kn → c ∈ base.cols →
        (c ++ "_" ++ kn ++ "_merge") ∈ m.cols) ∧
      (∀ c ∈ new.cols, c ≠ kn → c ∉ base.cols → c ∈ m.cols) ∧
      (kb = kn → m.cols.count kn = base.cols.count kn) ∧
      (kb ≠ kn → kb ∈ m.cols ∧
        (kn ∈ base.cols → (kn ++ "_" ++ kn ++ "_merge") ∈ m.cols) ∧
        (kn ∉ base.cols → kn ∈ m.cols)) := by
  have hkbmem : kb ∈ base.cols := colIdx_mem hi
  have hknmem : kn ∈ new.cols := colIdx_mem hj
  have hjget : new.cols[j]? = some kn := colIdx_getElem hj
  have hi2 : colIdx ⟨base.cols,
      base.rows.map (fun r => r.set i (normVal (r.getD i .vNa)))⟩ kb = some i := hi
  have hj2 : colIdx ⟨new.cols,
      new.rows.map (fun r => r.set j (normVal (r.getD j .vNa)))⟩ kn = some j := hj
  have hrowtake : ∀ (K : Nat) (mp' : List Value → List Value → List Value)
      (r : List Value),
      r ∈ (base.rows.map (fun r => r.set i (normVal (r.getD i .vNa)))).flatMap
        (fun r2 =>
          if ((new.rows.map (fun r => r.set j (normVal (r.getD j .vNa)))).filter
              (fun m' => r2.getD i .vNa == m'.getD j .vNa)).isEmpty then
            [r2 ++ List.replicate K Value.vNa]
          else ((new.rows.map (fun r => r.set j (normVal (r.getD j .vNa)))).filter
              (fun m' => r2.getD i .vNa == m'.getD j .vNa)).map (mp' r2)) →
      (∀ r2 m', ∃ rest, mp' r2 m' = r2 ++ rest) →
      r.take base.cols.length
        ∈ (base.rows.map (fun r => r.set i (normVal (r.getD i .vNa)))) := by
    intro K mp' r hr hmp
    obtain ⟨r2, hr2, hrf⟩ := List.mem_flatMap.1 hr
    obtain ⟨r0, hr0, rfl⟩ := List.mem_map.1 hr2
    have hlen : (r0.set i (normVal (r0.getD i .vNa))).length = base.cols.length := by
      rw [List.length_set]
      exact hwb r0 hr0
    split at hrf
    · rw [List.mem_singleton.1 hrf, List.take_left' hlen]
      exact hr2
    · obtain ⟨mrow, hmrow, rfl⟩ := List.mem_map.1 hrf
      obtain ⟨rest, hre⟩ := hmp (r0.set i (normVal (r0.getD i .vNa))) mrow
      rw [hre, List.take_left' hlen]
      exact hr2
  by_cases hk : kb = kn
  · have hm := leftMerge_eq_same hi2 hj2 hk
    refine ⟨⟨base.cols, base.rows.map (fun r => r.set i (normVal (r.getD i .vNa)))⟩,
      _, by simp [normalizeKeyCol, hi], merge_ok_run hi hj hwn huniq hm,
      List.take_left _ _, ?_, ?_, ?_, ?_, fun hne => absurd hk hne⟩
    · intro r hr
      exact hrowtake _ (fun r2 m' => r2 ++ m'.eraseIdx j) r hr
        (fun r2 m' => ⟨m'.eraseIdx j, rfl⟩)
    · intro c hc hne hcb
      exact List.mem_append_right _
        (mem_renameCols_of_collide (mem_eraseIdx_of_ne hjget hc hne) hcb)
    · intro c hc hne hcb
      exact List.mem_append_right _
        (mem_renameCols_of_fresh (mem_eraseIdx_of_ne hjget hc hne) hcb)
    · intro _
      rw [List.count_append, count_renameCols_key_zero (hk ▸ hkbmem)]
      exact Nat.add_zero _
  · have hm := leftMerge_eq_diff hi2 hj2 hk
    refine ⟨⟨base.cols, base.rows.map (fun r => r.set i (normVal (r.getD i .vNa)))⟩,
      _, by simp [normalizeKeyCol, hi], merge_ok_run hi hj hwn huniq hm,
      List.take_left _ _, ?_, ?_, ?_, fun heq => absurd heq hk, ?_⟩
    · intro r hr
      exact hrowtake _ (fun r2 m' => r2 ++ m') r hr (fun r2 m' => ⟨m', rfl⟩)
    · intro c hc _ hcb
      exact List.mem_append_right _ (mem_renameCols_of_collide hc hcb)
    · intro c hc _ hcb
      exact List.mem_append_right _ (mem_renameCols_of_fresh hc hcb)
    · intro _
      exact ⟨List.mem_append_left _ hkbmem,
        fun hknb => List.mem_append_right _ (mem_renameCols_of_collide hknmem hknb),
        fun hknb => List.mem_append_right _ (mem_renameCols_of_fresh hknmem hknb)⟩

/-- Witness for C5: the spec's Scenario D; the colliding non-key column
`score` is renamed `score_id_merge`, the coalesced key column `id` appears
exactly once, as in the base. -/
theorem merge_column_collision_suffix_witness :
    ∃ m, merge_datasets ⟨["id", "score"], [[Value.vStr "1", Value.vNum 1]]⟩
        ⟨["id", "score"], [[Value.vStr "1", Value.vNum 2]]⟩ "id" "id" = .ok m ∧
      ("score" ++ "_" ++ "id" ++ "_merge") ∈ m.cols ∧
      m.cols.count "id" = (["id", "score"] : List String).count "id" := by
  obtain ⟨base2, m, _, hok, _, _, hcol, _, hcnt, _⟩ :=
    merge_column_collision_suffix
      ⟨["id", "score"], [[Value.vStr "1", Value.vNum 1]]⟩
      ⟨["id", "score"], [[Value.vStr "1", Value.vNum 2]]⟩ "id" "id" 0 0
      (by decide) (by decide) (by decide) (by decide) (by decide)
  exact ⟨m, hok, hcol "score" (by decide) (by decide) (by decide), hcnt rfl⟩

/-- C4 counterexample: when the secondary key column is absent but the base
key was already normalized in place, the `except` branch returns the base
table with its key column string-cast and trimmed — not the base table
unchanged: here `" 1 "` comes back as `"1"`. -/
theorem merge_failure_mutated_base_counterexample :
    merge_datasets ⟨["a"], [[Value.vStr " 1 "]]⟩ ⟨["b"], [[Value.vStr "2"]]⟩
        "a" "c"
      = .failed "Merge failed: 'c'" ⟨["a"], [[Value.vStr "1"]]⟩ ∧
    (⟨["a"], [[Value.vStr "1"]]⟩ : Table) ≠ ⟨["a"], [[Value.vStr " 1 "]]⟩ := by
  exact ⟨by decide, by decide⟩

/-- C4 (amended): when a key column is absent from one side, `merge_datasets`
reports the error message and returns the base table as it stands at the
failure point — unchanged when the base key column itself is absent, but
with the base key column already normalized (string-cast and trimmed) in
place when the exception arises later (secondary key absent).  The failure
is recoverable: a `failed` result carries the table the workflow continues
with. -/
theorem merge_failure_returns_base (base new : Table) (kb kn : String)
    (hfail : kb ∉ base.cols ∨ kn ∉ new.cols) :
    ∃ msg t, merge_datasets base new kb kn = .failed msg t ∧
      ((kb ∉ base.cols ∧ t = base) ∨
       (kb ∈ base.cols ∧ kn ∉ new.cols ∧ normalizeKeyCol base kb = some t)) := by
  rcases hcb : colIdx base kb with _ | i
  · refine ⟨"Merge failed: '" ++ kb ++ "'", base, ?_,
      Or.inl ⟨(colIdx_eq_none_iff base kb).1 hcb, rfl⟩⟩
    simp [merge_datasets, normalizeKeyCol, hcb]
  · have hkb : kb ∈ base.cols := colIdx_mem hcb
    have hkn : kn ∉ new.cols := by
      rcases hfail with h | h
      · exact absurd hkb h
      · exact h
    have hcn : colIdx new kn = none := (colIdx_eq_none_iff new kn).2 hkn
    refine ⟨"Merge failed: '" ++ kn ++ "'",
      ⟨base.cols, base.rows.map (fun r => r.set i (normVal (r.getD i .vNa)))⟩,
      ?_, Or.inr ⟨hkb, hkn, by simp [normalizeKeyCol, hcb]⟩⟩
    simp [merge_datasets, normalizeKeyCol, hcb, hcn]

/-- Witness for C4 (amended): the same failing call as the counterexample,
with the hypothesis discharged concretely. -/
theorem merge_failure_returns_base_witness :
    ∃ msg t, merge_datasets ⟨["a"], [[Value.vStr " 1 "]]⟩
        ⟨["b"], [[Value.vStr "2"]]⟩ "a" "c" = .failed msg t ∧
      (("a" ∉ (⟨["a"], [[Value.vStr " 1 "]]⟩ : Table).cols ∧
          t = ⟨["a"], [[Value.vStr " 1 "]]⟩) ∨
       ("a" ∈ (⟨["a"], [[Value.vStr " 1 "]]⟩ : Table).cols ∧
          "c" ∉ (⟨["b"], [[Value.vStr "2"]]⟩ : Table).cols ∧
          normalizeKeyCol ⟨["a"], [[Value.vStr " 1 "]]⟩ "a" = some t)) :=
  merge_failure_returns_base ⟨["a"], [[Value.vStr " 1 "]]⟩
    ⟨["b"], [[Value.vStr "2"]]⟩ "a" "c" (Or.inr (by decide))

/-- C2 (code bug evaluation): a secondary row whose key cell is missing is
NOT dropped before the join: the string cast runs first, the missing key
becomes "nan", `dropna` removes nothing, and the row still matches a base
row whose own missing key also became "nan" — its value `v = 5` reaches the
output, where the claim (and the spec's step 2) requires the row to have
been dropped, which would leave `v` missing. -/
theorem merge_missing_key_row_not_dropped :
    merge_datasets ⟨["a"], [[Value.vNa]]⟩
        ⟨["b", "v"], [[Value.vNa, Value.vNum 5]]⟩ "a" "b"
      = .ok ⟨["a", "b", "v"],
          [[Value.vStr "nan", Value.vStr "nan", Value.vNum 5]]⟩ := by
  decide

/-- C6: `load_file` reports `Failed to load <name>: File is empty` when the
byte size is 0, `... : No data found` when the parse succeeds with zero
rows, and `... : <e>` when the parser raises `e`; on success it returns the
parsed rows with every column name lower-cased and trimmed; every error
message carries the file's name, and in the upload loop an erroring file is
skipped while all other files are processed unchanged. -/
theorem load_file_contract (f : FileHandle) :
    (f.size = 0 →
      load_file f = .error ("Failed to load " ++ f.name ++ ": File is empty")) ∧
    (∀ t, f.size ≠ 0 → f.parsed = .ok t → t.rows = [] →
      load_file f = .error ("Failed to load " ++ f.name ++ ": No data found")) ∧
    (∀ e, f.size ≠ 0 → f.parsed = .error e →
      load_file f = .error ("Failed to load " ++ f.name ++ ": " ++ e)) ∧
    (∀ t, load_file f = .ok t → ∃ t0, f.parsed = .ok t0 ∧ t0.rows ≠ [] ∧
      t.cols = t0.cols.map (fun c => c.toLower.pyStrip) ∧ t.rows = t0.rows) ∧
    (∀ msg, load_file f = .error msg →
      ∃ rest, msg = "Failed to load " ++ f.name ++ rest) ∧
    (∀ (pre post : List FileHandle) msg, load_file f = .error msg →
      loadAndClean (pre ++ f :: post) = loadAndClean (pre ++ post)) := by
  refine ⟨?_, ?_, ?_, ?_, ?_, ?_⟩
  · intro h
    simp [load_file, h]
  · intro t hs hp hr
    simp [load_file, hs, hp, hr]
  · intro e hs hp
    simp [load_file, hs, hp]
  · intro t hok
    by_cases hs : f.size = 0
    · simp [load_file, hs] at hok
    · rcases hp : f.parsed with e | t0
      · simp [load_file, hs, hp] at hok
      · by_cases hempty : (t0.rows.isEmpty || t0.cols.isEmpty) = true
        · simp only [load_file, hs, if_false, if_neg hs, hp, hempty, if_true] at hok
          cases hok
        · have hval : load_file f
              = .ok ⟨t0.cols.map (fun c => c.toLower.pyStrip), t0.rows⟩ := by
            simp only [load_file, if_neg hs, hp]
            rw [if_neg hempty]
          have ht : t = ⟨t0.cols.map (fun c => c.toLower.pyStrip), t0.rows⟩ := by
            have := hval.symm.trans hok
            cases this
            rfl
          have hrows : t0.rows ≠ [] := by
            simp only [Bool.or_eq_true, List.isEmpty_iff] at hempty
            exact fun he => hempty (Or.inl he)
          exact ⟨t0, rfl, hrows, by rw [ht], by rw [ht]⟩
  · intro msg herr
    by_cases hs : f.size = 0
    · refine ⟨": File is empty", ?_⟩
      have := (by simp [load_file, hs] :
        load_file f = .error ("Failed to load " ++ f.name ++ ": File is empty"))
      have h2 := this.symm.trans herr
      cases h2
      rfl
    · rcases hp : f.parsed with e | t0
      · refine ⟨": " ++ e, ?_⟩
        have := (by simp [load_file, hs, hp] :
          load_file f = .error ("Failed to load " ++ f.name ++ ": " ++ e))
        have h2 := this.symm.trans herr
        cases h2
        rw [String.append_assoc]
      · by_cases hempty : (t0.rows.isEmpty || t0.cols.isEmpty) = true
        · refine ⟨": No data found", ?_⟩
          have : load_file f
              = .error ("Failed to load " ++ f.name ++ ": No data found") := by
            simp only [load_file, if_neg hs, hp]
            rw [if_pos hempty]
          have h2 := this.symm.trans herr
          cases h2
          rfl
        · have : load_file f
              = .ok ⟨t0.cols.map (fun c => c.toLower.pyStrip), t0.rows⟩ := by
            simp only [load_file, if_neg hs, hp]
            rw [if_neg hempty]
          rw [this] at herr
          cases herr
  · intro pre post msg herr
    simp only [loadAndClean, List.filterMap_append, List.filterMap_cons, herr]

/-- C7: `clean_data` is idempotent for every input (a table or a failed
load) and any file labels: cleaning an already-cleaned table changes
nothing, because dropping the rows with a missing `completion %` twice
equals dropping them once, and a table without that column is returned
unchanged. -/
theorem clean_data_idempotent (df : Option Table) (name1 name2 : String) :
    clean_data (some (clean_data df name1)) name2 = clean_data df name1 := by
  rcases df with _ | t
  · rfl
  · rcases hci : colIdx t "completion %" with _ | i
    · simp [clean_data, hci]
    · have hci2 : colIdx
          ⟨t.cols, t.rows.filter (fun r => !(r.getD i .vNa == .vNa))⟩
          "completion %" = some i := hci
      simp only [clean_data, hci, hci2]
      rw [List.filter_filter]
      simp [Bool.and_self]

/-- C8: a table with no `completion %` column is returned unchanged by
`clean_data`, in particular with the same row count. -/
theorem clean_data_no_completion_col (t : Table) (name : String)
    (h : "completion %" ∉ t.cols) :
    clean_data (some t) name = t ∧
    (clean_data (some t) name).rows.length = t.rows.length := by
  have hci : colIdx t "completion %" = none := (colIdx_eq_none_iff t _).2 h
  refine ⟨by simp [clean_data, hci], by simp [clean_data, hci]⟩

/-- Witness for C8 on a concrete table without a `completion %` column. -/
theorem clean_data_no_completion_col_witness :
    clean_data (some ⟨["x"], [[Value.vNum 1]]⟩) "f.csv"
        = ⟨["x"], [[Value.vNum 1]]⟩ ∧
    (clean_data (some ⟨["x"], [[Value.vNum 1]]⟩) "f.csv").rows.length
        = (⟨["x"], [[Value.vNum 1]]⟩ : Table).rows.length :=
  clean_data_no_completion_col ⟨["x"], [[Value.vNum 1]]⟩ "f.csv" (by decide)

/-- C10: on a table with a `completion %` column, `clean_data` only removes
rows: the columns are unchanged and the output rows form a sublist of the
input rows — every surviving row is kept whole (all columns and values) and
in its original relative order.  The embedding is pure, mirroring that
`dropna` allocates a new frame: the input table value is untouched. -/
theorem clean_data_only_removes_rows (t : Table) (name : String)
    (h : "completion %" ∈ t.cols) :
    (clean_data (some t) name).cols = t.cols ∧
    (clean_data (some t) name).rows.Sublist t.rows := by
  obtain ⟨i, hci⟩ := colIdx_isSome_of_mem h
  refine ⟨by simp [clean_data, hci], ?_⟩
  simp only [clean_data, hci]
  exact List.filter_sublist t.rows

/-- Witness for C10 on a concrete table: the row with the missing
`completion %` goes, the other survives intact. -/
theorem clean_data_only_removes_rows_witness :
    (clean_data (some ⟨["completion %"], [[Value.vNa], [Value.vNum 3]]⟩)
        "f.csv").cols = (⟨["completion %"],
        [[Value.vNa], [Value.vNum 3]]⟩ : Table).cols ∧
    (clean_data (some ⟨["completion %"], [[Value.vNa], [Value.vNum 3]]⟩)
        "f.csv").rows.Sublist
      (⟨["completion %"], [[Value.vNa], [Value.vNum 3]]⟩ : Table).rows :=
  clean_data_only_removes_rows ⟨["completion %"], [[Value.vNa], [Value.vNum 3]]⟩
    "f.csv" (by decide)
